import Mathlib

/-!
Shallow embedding of the in-memory FUSE filesystem in `src/main.rs`
(`MemFS` and its `Filesystem` implementation), together with proofs of the
specification's claims about it.

Modelling conventions:
* `HashMap<INode, _>` becomes an association list `List (Nat × _)`; the
  states produced by the operations keep keys distinct, matching the map.
  `HashMap::insert` is `alistInsert` (replace or append), `get`/`get_mut`
  are `alistGet`/`alistModify` (first matching key), `remove` is
  `alistErase`.
* Rust `String` content is modelled as its byte sequence (`List Nat`,
  bytes < 256); `String::from_utf8(..).expect(..)` becomes a `validUtf8`
  guard, with `none` standing for the panic that aborts the call.
* Wall-clock inputs (the time-derived inode numbers of `create`, `mkdir`,
  `symlink`, and the timestamp of `new_file_attr`) become explicit
  parameters.
* Machine integers (`u64` inode numbers, sizes, generations, `u32` nlink)
  are modelled as `Nat`; no operation overflows them, and `nlink -= 1` is
  only reached with `nlink ≥ 1` in the states the theorems speak about.
* Replies are modelled as return values: `reply.error(..)` becomes an
  error constructor / `none` / a `false` flag, exactly one per operation.
-/

namespace KahiroFS

/-- File kinds used by the program (`fuse::FileType` restricted to the
constructors the source constructs or matches on). -/
inductive FileType where
  | RegularFile
  | Directory
  | Symlink
deriving DecidableEq

/-- One directory entry pointing at an inode: `struct HardLink`. -/
structure HardLink where
  parent_ino : Nat
  name : String
deriving DecidableEq

/-- Attribute record: `fuse::FileAttr` as populated by the program. -/
structure FileAttr where
  ino : Nat
  size : Nat
  blocks : Nat
  atime : Nat
  mtime : Nat
  ctime : Nat
  crtime : Nat
  kind : FileType
  perm : Nat
  nlink : Nat
  uid : Nat
  gid : Nat
  rdev : Nat
  flags : Nat
deriving DecidableEq

/-- Per-inode record: `struct File`. -/
structure File where
  hard_links : List HardLink
  attr : FileAttr
  generation : Nat
deriving DecidableEq

/-- Whole filesystem state: `struct MemFS`, with both `HashMap`s as
association lists. `datas` holds content as byte sequences. -/
structure MemFS where
  inodes : List (Nat × File)
  datas : List (Nat × List Nat)
deriving DecidableEq

/-- First value stored under key `k` (`HashMap::get`). -/
def alistGet {α : Type} (k : Nat) : List (Nat × α) → Option α
  | [] => none
  | p :: t => if p.1 = k then some p.2 else alistGet k t

/-- Replace the value under `k`, or append it (`HashMap::insert`). -/
def alistInsert {α : Type} (k : Nat) (v : α) : List (Nat × α) → List (Nat × α)
  | [] => [(k, v)]
  | p :: t => if p.1 = k then (k, v) :: t else p :: alistInsert k v t

/-- Update the value under `k` in place, if present (`HashMap::get_mut`
followed by a mutation of the entry). -/
def alistModify {α : Type} (k : Nat) (g : α → α) : List (Nat × α) → List (Nat × α)
  | [] => []
  | p :: t => if p.1 = k then (p.1, g p.2) :: t else p :: alistModify k g t

/-- Remove the entries under `k` (`HashMap::remove`). -/
def alistErase {α : Type} (k : Nat) (l : List (Nat × α)) : List (Nat × α) :=
  l.filter (fun p => p.1 != k)

/-- Is `b` a UTF-8 continuation byte (`0x80 ..= 0xBF`)? -/
def isCont (b : Nat) : Bool :=
  0x80 ≤ b && b ≤ 0xBF

/-- UTF-8 validity of a byte sequence, as checked by Rust's
`String::from_utf8` (RFC 3629: no overlong forms, no surrogates, no code
points above U+10FFFF). -/
def validUtf8 : List Nat → Bool
  | [] => true
  | b :: rest =>
    if b ≤ 0x7F then
      validUtf8 rest
    else if 0xC2 ≤ b && b ≤ 0xDF then
      match rest with
      | c1 :: r => isCont c1 && validUtf8 r
      | [] => false
    else if b = 0xE0 then
      match rest with
      | c1 :: c2 :: r => (0xA0 ≤ c1 && c1 ≤ 0xBF) && isCont c2 && validUtf8 r
      | _ => false
    else if (0xE1 ≤ b && b ≤ 0xEC) || b = 0xEE || b = 0xEF then
      match rest with
      | c1 :: c2 :: r => isCont c1 && isCont c2 && validUtf8 r
      | _ => false
    else if b = 0xED then
      match rest with
      | c1 :: c2 :: r => (0x80 ≤ c1 && c1 ≤ 0x9F) && isCont c2 && validUtf8 r
      | _ => false
    else if b = 0xF0 then
      match rest with
      | c1 :: c2 :: c3 :: r =>
          (0x90 ≤ c1 && c1 ≤ 0xBF) && isCont c2 && isCont c3 && validUtf8 r
      | _ => false
    else if 0xF1 ≤ b && b ≤ 0xF3 then
      match rest with
      | c1 :: c2 :: c3 :: r => isCont c1 && isCont c2 && isCont c3 && validUtf8 r
      | _ => false
    else if b = 0xF4 then
      match rest with
      | c1 :: c2 :: c3 :: r =>
          (0x80 ≤ c1 && c1 ≤ 0x8F) && isCont c2 && isCont c3 && validUtf8 r
      | _ => false
    else false

/-- Attribute defaults at creation: `fn new_file_attr` (`t` is the
`time::now()` timestamp, filled into all four time fields). -/
def new_file_attr (ino size : Nat) (ftype : FileType) (uid gid t : Nat) : FileAttr :=
  { ino := ino
    size := size
    blocks := 0
    atime := t
    mtime := t
    ctime := t
    crtime := t
    kind := ftype
    perm := if ftype = .Directory then 0o755 else 0o644
    nlink := if ftype = .Directory then 2 else 1
    uid := uid
    gid := gid
    rdev := 0
    flags := 0 }

/-- Does the link-entry list contain the pair `(parent, name)`?
(the `position(|h| h.parent_ino == parent && h.name == name)` scans). -/
def hasEntry (parent : Nat) (name : String) (l : List HardLink) : Bool :=
  l.any (fun h => h.parent_ino = parent && h.name = name)

/-- `getattr`: linear scan of the table for `ino`; `ENOENT` is `none`. -/
def getattr (fs : MemFS) (ino : Nat) : Option FileAttr :=
  (alistGet ino fs.inodes).map File.attr

/-- `lookup`: first inode holding a `(parent, name)` link entry; replies
with its attributes and generation, `ENOENT` is `none`. -/
def lookup (fs : MemFS) (parent : Nat) (name : String) : Option (FileAttr × Nat) :=
  match fs.inodes.find? (fun p => hasEntry parent name p.2.hard_links) with
  | some p => some (p.2.attr, p.2.generation)
  | none => none

/-- One entry of a `readdir` reply, the arguments of one `reply.add`. -/
structure DirEntry where
  ino : Nat
  off : Nat
  kind : FileType
  name : String
deriving DecidableEq

/-- Inner loop of `readdir`: entries produced for one `File`'s hard links,
threading the running `reply_add_offset` counter. -/
def linkEntries (ino : Nat) (f : File) : List HardLink → Nat → List DirEntry
  | [], _ => []
  | h :: t, off =>
    if h.parent_ino = ino then
      ⟨f.attr.ino, off, f.attr.kind, h.name⟩ :: linkEntries ino f t (off + 1)
    else
      linkEntries ino f t off

/-- Outer loop of `readdir`: entries over all inodes in table order,
threading the running offset counter. -/
def inodeEntries (ino : Nat) : List (Nat × File) → Nat → List DirEntry
  | [], _ => []
  | p :: t, off =>
    linkEntries ino p.2 p.2.hard_links off ++
      inodeEntries ino t (off + (linkEntries ino p.2 p.2.hard_links off).length)

/-- `readdir`: nothing when `offset > 0`; otherwise `.` and `..`
(hard-coded inode numbers 1 and 2, offsets 0 and 1) followed by every hard
link whose parent is `ino`, at offsets counted from 2. -/
def readdir (fs : MemFS) (ino : Nat) (offset : Int) : List DirEntry :=
  if offset > 0 then []
  else
    ⟨1, 0, .Directory, "."⟩ :: ⟨2, 1, .Directory, ".."⟩ :: inodeEntries ino fs.inodes 2

/-- `create`: inserts a fresh regular-file inode (number `newIno`, taken
from the clock in the source) with a single link entry; never fails. -/
def create (fs : MemFS) (newIno parent : Nat) (name : String) (uid gid t : Nat) :
    FileAttr × MemFS :=
  let f := new_file_attr newIno 0 .RegularFile uid gid t
  (f, { fs with
          inodes := alistInsert newIno ⟨[⟨parent, name⟩], f, 0⟩ fs.inodes })

/-- `mkdir`: same as `create` with kind directory. -/
def mkdir (fs : MemFS) (newIno parent : Nat) (name : String) (uid gid t : Nat) :
    FileAttr × MemFS :=
  let f := new_file_attr newIno 0 .Directory uid gid t
  (f, { fs with
          inodes := alistInsert newIno ⟨[⟨parent, name⟩], f, 0⟩ fs.inodes })

/-- `symlink`: fresh symlink inode plus its target path stored as content;
`none` is the panic of `to_str().unwrap()` on a non-UTF-8 target. -/
def symlink (fs : MemFS) (newIno parent : Nat) (name : String) (target : List Nat)
    (uid gid t : Nat) : Option (FileAttr × MemFS) :=
  if validUtf8 target then
    let f := new_file_attr newIno 0 .Symlink uid gid t
    some (f, ⟨alistInsert newIno ⟨[⟨parent, name⟩], f, 0⟩ fs.inodes,
              alistInsert newIno target fs.datas⟩)
  else none

/-- The in-place mutation `setattr` performs on the matched entry:
replace the attributes and bump the generation. -/
def setattrUpd (attr' : FileAttr) (f : File) : File :=
  { f with attr := attr', generation := f.generation + 1 }

/-- `setattr`: applies only size/uid/gid/mtime/flags when present, bumps
the generation, replies with the updated attributes; `EACCES` (`none`
result, unchanged state) when the inode is absent. -/
def setattr (fs : MemFS) (ino : Nat) (size uid gid : Option Nat) (mtime : Option Nat)
    (flags : Option Nat) : Option FileAttr × MemFS :=
  match alistGet ino fs.inodes with
  | some f =>
    let attr' : FileAttr :=
      { f.attr with
          size := size.getD f.attr.size
          uid := uid.getD f.attr.uid
          gid := gid.getD f.attr.gid
          mtime := mtime.getD f.attr.mtime
          flags := flags.getD f.attr.flags }
    (some attr', { fs with inodes := alistModify ino (setattrUpd attr') fs.inodes })
  | none => (none, fs)

/-- The in-place mutation `write` performs on the matched entry: set the
size to the written length and bump the generation. -/
def writeUpd (n : Nat) (f : File) : File :=
  { f with attr := { f.attr with size := n }, generation := f.generation + 1 }

/-- `write`: stores the bytes under `ino` unconditionally (before any
inode check), then, if the inode exists, sets its size and bumps its
generation; always reports the full length written. `none` is the
`String::from_utf8(..).expect(..)` panic on invalid UTF-8. -/
def write (fs : MemFS) (ino : Nat) (data : List Nat) : Option (Nat × MemFS) :=
  if validUtf8 data then
    some (data.length,
      ⟨alistModify ino (writeUpd data.length) fs.inodes,
        alistInsert ino data fs.datas⟩)
  else none

/-- `read`: the stored bytes (empty when absent) when `ino` exists with
kind regular file; `EACCES` (`none`) otherwise. -/
def read (fs : MemFS) (ino : Nat) : Option (List Nat) :=
  match alistGet ino fs.inodes with
  | some f =>
    if f.attr.kind = .RegularFile then some ((alistGet ino fs.datas).getD []) else none
  | none => none

/-- `readlink`: the stored target when `ino` exists with kind symlink and
has content; `EACCES` (`none`) otherwise. -/
def readlink (fs : MemFS) (ino : Nat) : Option (List Nat) :=
  match alistGet ino fs.inodes with
  | some f =>
    if f.attr.kind = .Symlink then alistGet ino fs.datas else none
  | none => none

/-- Result of `link`: a `reply.entry` or one of the two error codes. -/
inductive LinkResult where
  | entry (attr : FileAttr) (gen : Nat)
  | eexist
  | enoent
deriving DecidableEq

/-- The in-place mutation `link` performs on the matched entry: bump
`nlink` and push the new hard link. -/
def linkUpd (newparent : Nat) (newname : String) (f : File) : File :=
  { f with attr := { f.attr with nlink := f.attr.nlink + 1 },
           hard_links := f.hard_links ++ [⟨newparent, newname⟩] }

/-- `link`: `ENOENT` when the source inode is missing; `EEXIST` when the
source inode's own link entries already contain `(newparent, newname)`
(other inodes' entries are not consulted); otherwise bumps `nlink`,
appends the entry, and replies with the updated attributes and the
(unchanged) generation. -/
def link (fs : MemFS) (ino newparent : Nat) (newname : String) : LinkResult × MemFS :=
  match alistGet ino fs.inodes with
  | some f =>
    if hasEntry newparent newname f.hard_links then (.eexist, fs)
    else
      (.entry (linkUpd newparent newname f).attr f.generation,
       { fs with inodes := alistModify ino (linkUpd newparent newname) fs.inodes })
  | none => (.enoent, fs)

/-- Remove the first link entry whose *name* matches (the
`position(|x| x.name == name)` / `remove(index)` pair in `unlink`). -/
def removeFirstByName (name : String) : List HardLink → List HardLink
  | [] => []
  | h :: t => if h.name = name then t else h :: removeFirstByName name t

/-- Per-inode effect of `unlink`: when the inode holds a `(parent, name)`
entry, drop the first entry with that *name* and decrement `nlink`;
otherwise leave it alone. -/
def unlinkFile (parent : Nat) (name : String) (f : File) : File :=
  if hasEntry parent name f.hard_links then
    { f with hard_links := removeFirstByName name f.hard_links,
             attr := { f.attr with nlink := f.attr.nlink - 1 } }
  else f

/-- Does `unlink (parent, name)` empty this table entry's link set?
(the `if f.hard_links.len() == 0` test guarded by the match test). -/
def delCond (parent : Nat) (name : String) (p : Nat × File) : Bool :=
  hasEntry parent name p.2.hard_links &&
    (removeFirstByName name p.2.hard_links).isEmpty

/-- The `delete_ino` accumulator of `unlink`: starts at 0 and is
overwritten by each inode whose link set empties, so it ends as the last
such inode in table order (0 when none). -/
def deleteIno (parent : Nat) (name : String) (l : List (Nat × File)) : Nat :=
  l.foldl (fun acc p => if delCond parent name p then p.1 else acc) 0

/-- `unlink`: applies `unlinkFile` to every inode, records the last inode
whose link set emptied, and, when that record is nonzero, removes that
inode and its content; replies ok iff some inode held a `(parent, name)`
entry, `EACCES` (`false`) otherwise. -/
def unlink (fs : MemFS) (parent : Nat) (name : String) : Bool × MemFS :=
  let okReply := fs.inodes.any (fun p => hasEntry parent name p.2.hard_links)
  let inodes1 := fs.inodes.map (fun p => (p.1, unlinkFile parent name p.2))
  let d := deleteIno parent name fs.inodes
  if d ≠ 0 then
    (okReply, ⟨alistErase d inodes1, alistErase d fs.datas⟩)
  else
    (okReply, ⟨inodes1, fs.datas⟩)

/-- `rmdir` forwards to `unlink` verbatim. -/
def rmdir (fs : MemFS) (parent : Nat) (name : String) : Bool × MemFS :=
  unlink fs parent name

/-- Startup state built in `main`: the root directory, inode 1, with its
synthetic link entry `(0, "/")` and owner 501:20; empty content store.
`t` is the clock value at startup. -/
def initState (t : Nat) : MemFS :=
  ⟨[(1, ⟨[⟨0, "/"⟩], new_file_attr 1 0 .Directory 501 20 t, 0⟩)], []⟩

/-- Example state: the startup state after `create`-ing a regular file
"a" under the root (fresh inode number 2, clock 1). -/
def exFileState : MemFS := (create (initState 0) 2 1 "a" 501 20 1).2

/-- The `File` record held at inode 2 of `exFileState`. -/
def exFile : File := ⟨[⟨1, "a"⟩], new_file_attr 2 0 .RegularFile 501 20 1, 0⟩

/-- Example state: `exFileState` after `create`-ing a second regular file
"b" under the root (fresh inode number 3, clock 2). -/
def exTwoFiles : MemFS := (create exFileState 3 1 "b" 501 20 2).2

/-- Example state: the startup state after `mkdir /d` (inode 5) and
`create /d/f` (inode 6, parent 5) — a directory with one child. -/
def exDirState : MemFS :=
  (create (mkdir (initState 0) 5 1 "d" 501 20 1).2 6 5 "f" 501 20 2).2

/-- Example state: a file (inode 2) with two hard links that share the
name "a" under different parents (3 and 4), built by `create` then
`link`. -/
def exSameName : MemFS := (link (create (initState 0) 2 3 "a" 501 20 1).2 2 4 "a").2

/-! ### Specification predicates used to state the claims -/

/-- Link-count bookkeeping as the code actually maintains it: a directory
inode carries one more `nlink` than it has link entries (it is born with
`nlink = 2` and a single entry), every other kind carries exactly the
number of its link entries. -/
def linkCountInv (fs : MemFS) : Prop :=
  ∀ p ∈ fs.inodes, (p : Nat × File).2.attr.nlink
      = p.2.hard_links.length + (if p.2.attr.kind = .Directory then 1 else 0)

/-- Inode 1 is present and is a directory. -/
def rootOk (fs : MemFS) : Bool :=
  match alistGet 1 fs.inodes with
  | some f => f.attr.kind == .Directory
  | none => false

/-- An `unlink (parent, name)` call is safe for the root: it does not
match inode 1's entries, or inode 1 keeps at least one entry after the
removal. -/
def rootUnlinkSafe (fs : MemFS) (parent : Nat) (name : String) : Bool :=
  match alistGet 1 fs.inodes with
  | some f =>
    !(hasEntry parent name f.hard_links) ||
      !(removeFirstByName name f.hard_links).isEmpty
  | none => true

/-- Every content entry is keyed by an inode that is present in the table
with kind regular file or symlink. -/
def contentOk (fs : MemFS) : Prop :=
  ∀ p ∈ fs.datas, ∃ q ∈ fs.inodes, (q : Nat × File).1 = (p : Nat × List Nat).1 ∧
    (q.2.attr.kind = .RegularFile ∨ q.2.attr.kind = .Symlink)

/-! ### Association-list lemmas -/

/-- Keys of the table are pairwise distinct, as a `HashMap`'s are. -/
def keysNodup {α : Type} (l : List (Nat × α)) : Prop :=
  (l.map Prod.fst).Nodup

theorem alistGet_insert_self {α : Type} (k : Nat) (v : α) (l : List (Nat × α)) :
    alistGet k (alistInsert k v l) = some v := by
  induction l with
  | nil => simp [alistGet, alistInsert]
  | cons p t ih =>
    by_cases h : p.1 = k
    · simp [alistInsert, alistGet, h]
    · simp [alistInsert, alistGet, h, ih]

theorem alistGet_insert_ne {α : Type} (k j : Nat) (v : α) (l : List (Nat × α))
    (h : j ≠ k) : alistGet j (alistInsert k v l) = alistGet j l := by
  have hkj : ¬ k = j := fun he => h he.symm
  induction l with
  | nil => simp [alistGet, alistInsert, hkj]
  | cons p t ih =>
    by_cases hp : p.1 = k
    · rw [show alistInsert k v (p :: t) = (k, v) :: t by simp [alistInsert, hp]]
      simp [alistGet, hkj, hp]
    · rw [show alistInsert k v (p :: t) = p :: alistInsert k v t by
        simp [alistInsert, hp]]
      by_cases hj : p.1 = j
      · simp [alistGet, hj]
      · simp [alistGet, hj, ih]

theorem alistGet_modify_self {α : Type} (k : Nat) (g : α → α) (l : List (Nat × α)) :
    alistGet k (alistModify k g l) = (alistGet k l).map g := by
  induction l with
  | nil => simp [alistGet, alistModify]
  | cons p t ih =>
    by_cases h : p.1 = k
    · simp [alistModify, alistGet, h]
    · simp [alistModify, alistGet, h, ih]

theorem alistGet_modify_ne {α : Type} (k j : Nat) (g : α → α) (l : List (Nat × α))
    (h : j ≠ k) : alistGet j (alistModify k g l) = alistGet j l := by
  induction l with
  | nil => simp [alistGet, alistModify]
  | cons p t ih =>
    by_cases hp : p.1 = k
    · rw [show alistModify k g (p :: t) = (p.1, g p.2) :: t by
        simp [alistModify, hp]]
      have hpj : ¬ p.1 = j := fun he => h (hp ▸ he).symm
      simp [alistGet, hpj]
    · rw [show alistModify k g (p :: t) = p :: alistModify k g t by
        simp [alistModify, hp]]
      by_cases hj : p.1 = j
      · simp [alistGet, hj]
      · simp [alistGet, hj, ih]

theorem alistGet_map {α : Type} (k : Nat) (g : α → α) (l : List (Nat × α)) :
    alistGet k (l.map (fun p => (p.1, g p.2))) = (alistGet k l).map g := by
  induction l with
  | nil => simp [alistGet]
  | cons p t ih =>
    by_cases h : p.1 = k <;> simp [alistGet, h, ih]

theorem alistGet_erase_self {α : Type} (k : Nat) (l : List (Nat × α)) :
    alistGet k (alistErase k l) = none := by
  induction l with
  | nil => rfl
  | cons p t ih =>
    by_cases h : p.1 = k
    · simpa [alistErase, List.filter_cons, h] using ih
    · simpa [alistErase, List.filter_cons, h, alistGet, bne_iff_ne] using ih

theorem alistGet_erase_ne {α : Type} (k j : Nat) (l : List (Nat × α)) (h : j ≠ k) :
    alistGet j (alistErase k l) = alistGet j l := by
  induction l with
  | nil => rfl
  | cons p t ih =>
    by_cases hp : p.1 = k
    · have hpj : ¬ p.1 = j := fun he => h (by rw [← he]; exact hp)
      rw [show alistErase k (p :: t) = alistErase k t by
        simp [alistErase, List.filter_cons, hp]]
      rw [ih]
      simp [alistGet, hpj]
    · rw [show alistErase k (p :: t) = p :: alistErase k t by
        simp [alistErase, List.filter_cons, hp, bne_iff_ne]]
      by_cases hj : p.1 = j
      · simp [alistGet, hj]
      · simp [alistGet, hj, ih]

theorem alistGet_mem {α : Type} {k : Nat} {v : α} {l : List (Nat × α)}
    (h : alistGet k l = some v) : (k, v) ∈ l := by
  induction l with
  | nil => simp [alistGet] at h
  | cons p t ih =>
    obtain ⟨a, b⟩ := p
    by_cases hp : a = k
    · simp [alistGet, hp] at h
      subst hp
      subst h
      exact List.mem_cons_self _ _
    · simp [alistGet, hp] at h
      exact List.mem_cons_of_mem _ (ih h)

theorem mem_alistInsert {α : Type} {p : Nat × α} {k : Nat} {v : α}
    {l : List (Nat × α)} (h : p ∈ alistInsert k v l) : p = (k, v) ∨ p ∈ l := by
  induction l with
  | nil => simpa [alistInsert] using h
  | cons q t ih =>
    by_cases hq : q.1 = k
    · rw [show alistInsert k v (q :: t) = (k, v) :: t by simp [alistInsert, hq]] at h
      rcases List.mem_cons.mp h with h' | h'
      · exact Or.inl h'
      · exact Or.inr (List.mem_cons_of_mem _ h')
    · rw [show alistInsert k v (q :: t) = q :: alistInsert k v t by
        simp [alistInsert, hq]] at h
      rcases List.mem_cons.mp h with h' | h'
      · exact Or.inr (List.mem_cons.mpr (Or.inl h'))
      · rcases ih h' with h'' | h''
        · exact Or.inl h''
        · exact Or.inr (List.mem_cons_of_mem _ h'')

theorem self_mem_alistInsert {α : Type} (k : Nat) (v : α) (l : List (Nat × α)) :
    (k, v) ∈ alistInsert k v l := by
  induction l with
  | nil => simp [alistInsert]
  | cons q t ih =>
    by_cases hq : q.1 = k
    · rw [show alistInsert k v (q :: t) = (k, v) :: t by simp [alistInsert, hq]]
      exact List.mem_cons_self _ _
    · rw [show alistInsert k v (q :: t) = q :: alistInsert k v t by
        simp [alistInsert, hq]]
      exact List.mem_cons_of_mem _ ih

theorem mem_alistInsert_of_ne {α : Type} {p : Nat × α} {k : Nat} (v : α)
    {l : List (Nat × α)} (h : p ∈ l) (hne : p.1 ≠ k) : p ∈ alistInsert k v l := by
  induction l with
  | nil => cases h
  | cons q t ih =>
    by_cases hq : q.1 = k
    · rw [show alistInsert k v (q :: t) = (k, v) :: t by simp [alistInsert, hq]]
      rcases List.mem_cons.mp h with h' | h'
      · exact absurd (by rw [h']; exact hq) hne
      · exact List.mem_cons_of_mem _ h'
    · rw [show alistInsert k v (q :: t) = q :: alistInsert k v t by
        simp [alistInsert, hq]]
      rcases List.mem_cons.mp h with h' | h'
      · exact List.mem_cons.mpr (Or.inl h')
      · exact List.mem_cons_of_mem _ (ih h')

theorem mem_alistModify {α : Type} {p : Nat × α} {k : Nat} {g : α → α}
    {l : List (Nat × α)} (h : p ∈ alistModify k g l) :
    p ∈ l ∨ ∃ q ∈ l, p = (q.1, g q.2) := by
  induction l with
  | nil => simp [alistModify] at h
  | cons q t ih =>
    by_cases hq : q.1 = k
    · rw [show alistModify k g (q :: t) = (q.1, g q.2) :: t by
        simp [alistModify, hq]] at h
      rcases List.mem_cons.mp h with h' | h'
      · exact Or.inr ⟨q, List.mem_cons_self _ _, h'⟩
      · exact Or.inl (List.mem_cons_of_mem _ h')
    · rw [show alistModify k g (q :: t) = q :: alistModify k g t by
        simp [alistModify, hq]] at h
      rcases List.mem_cons.mp h with h' | h'
      · exact Or.inl (List.mem_cons.mpr (Or.inl h'))
      · rcases ih h' with h'' | ⟨r, hr, he⟩
        · exact Or.inl (List.mem_cons_of_mem _ h'')
        · exact Or.inr ⟨r, List.mem_cons_of_mem _ hr, he⟩

theorem mem_alistErase {α : Type} {p : Nat × α} {k : Nat} {l : List (Nat × α)}
    (h : p ∈ alistErase k l) : p ∈ l ∧ p.1 ≠ k := by
  have h' := List.mem_filter.mp h
  refine ⟨h'.1, ?_⟩
  simpa [bne_iff_ne] using h'.2

theorem mem_alistErase_of {α : Type} {p : Nat × α} {k : Nat} {l : List (Nat × α)}
    (h : p ∈ l) (hne : p.1 ≠ k) : p ∈ alistErase k l :=
  List.mem_filter.mpr ⟨h, by simpa [bne_iff_ne] using hne⟩

theorem alistGet_of_mem_nodup {α : Type} {k : Nat} {v : α} {l : List (Nat × α)}
    (hn : keysNodup l) (h : (k, v) ∈ l) : alistGet k l = some v := by
  induction l with
  | nil => cases h
  | cons p t ih =>
    have hn' := List.nodup_cons.mp hn
    rcases List.mem_cons.mp h with h' | h'
    · rw [← h']
      simp [alistGet]
    · have hk : k ∈ t.map Prod.fst := List.mem_map.mpr ⟨(k, v), h', rfl⟩
      have hp : ¬ p.1 = k := fun he => hn'.1 (he ▸ hk)
      simp only [alistGet, hp, if_false]
      exact ih hn'.2 h'

theorem keysNodup_cons {α : Type} {p : Nat × α} {t : List (Nat × α)}
    (h : keysNodup (p :: t)) : p.1 ∉ t.map Prod.fst ∧ keysNodup t :=
  List.nodup_cons.mp h

/-! ### Lemmas about link-entry removal -/

theorem hasEntry_iff {parent : Nat} {name : String} {l : List HardLink} :
    hasEntry parent name l = true ↔
      ∃ h ∈ l, h.parent_ino = parent ∧ h.name = name := by
  simp [hasEntry, List.any_eq_true]

theorem hasEntry_name {parent : Nat} {name : String} {l : List HardLink}
    (h : hasEntry parent name l = true) : ∃ e ∈ l, e.name = name := by
  rcases hasEntry_iff.mp h with ⟨e, he, _, hn⟩
  exact ⟨e, he, hn⟩

theorem removeFirstByName_length {name : String} {l : List HardLink}
    (h : ∃ e ∈ l, e.name = name) :
    (removeFirstByName name l).length + 1 = l.length := by
  induction l with
  | nil => simp at h
  | cons e t ih =>
    by_cases he : e.name = name
    · simp [removeFirstByName, he]
    · rcases h with ⟨e', he', hn⟩
      rcases List.mem_cons.mp he' with h' | h'
      · exact absurd (h' ▸ hn) he
      · simp only [removeFirstByName, he, if_false, List.length_cons]
        rw [← ih ⟨e', h', hn⟩]

theorem unlinkFile_no_match {parent : Nat} {name : String} {f : File}
    (h : hasEntry parent name f.hard_links = false) :
    unlinkFile parent name f = f := by
  simp [unlinkFile, h]

theorem unlinkFile_kind (parent : Nat) (name : String) (f : File) :
    (unlinkFile parent name f).attr.kind = f.attr.kind := by
  unfold unlinkFile
  split <;> rfl

theorem unlinkFile_generation (parent : Nat) (name : String) (f : File) :
    (unlinkFile parent name f).generation = f.generation := by
  unfold unlinkFile
  split <;> rfl

theorem map_id_on {α : Type} {f : α → α} {l : List α} (h : ∀ a ∈ l, f a = a) :
    l.map f = l := by
  induction l with
  | nil => rfl
  | cons a t ih =>
    simp only [List.map_cons, h a (List.mem_cons_self _ _),
      ih fun b hb => h b (List.mem_cons_of_mem _ hb)]

/-! ### Lemmas about the `delete_ino` fold -/

theorem foldl_stay {parent : Nat} {name : String} {x : Nat} :
    ∀ {l : List (Nat × File)},
      (∀ p ∈ l, delCond parent name p = true → p.1 = x) →
      l.foldl (fun acc p => if delCond parent name p then p.1 else acc) x = x := by
  intro l
  induction l with
  | nil => intro _; rfl
  | cons p t ih =>
    intro h
    by_cases hp : delCond parent name p = true
    · simp only [List.foldl_cons, hp, if_true]
      rw [h p (List.mem_cons_self _ _) hp]
      exact ih fun q hq hc => h q (List.mem_cons_of_mem _ hq) hc
    · simp only [List.foldl_cons, hp, if_false]
      exact ih fun q hq hc => h q (List.mem_cons_of_mem _ hq) hc

theorem deleteIno_unique {parent : Nat} {name : String} {l : List (Nat × File)}
    {q : Nat × File} (hq : q ∈ l)
    (huniq : ∀ p ∈ l, delCond parent name p = true → p = q) :
    deleteIno parent name l = if delCond parent name q then q.1 else 0 := by
  induction l with
  | nil => cases hq
  | cons p t ih =>
    by_cases hcp : delCond parent name p = true
    · have hpq : p = q := huniq p (List.mem_cons_self _ _) hcp
      subst hpq
      have hstay :
          t.foldl (fun acc r => if delCond parent name r then r.1 else acc) p.1
            = p.1 :=
        foldl_stay fun r hr hc => by
          rw [huniq r (List.mem_cons_of_mem _ hr) hc]
      have hstep : deleteIno parent name (p :: t)
          = t.foldl (fun acc r => if delCond parent name r then r.1 else acc) p.1 := by
        simp [deleteIno, List.foldl_cons, hcp]
      rw [hstep, hstay, if_pos hcp]
    · rcases List.mem_cons.mp hq with hq' | hq'
      · have hcq : delCond parent name q ≠ true := fun hc => hcp (hq' ▸ hc)
        have h0 :
            t.foldl (fun acc r => if delCond parent name r then r.1 else acc) 0
              = 0 :=
          foldl_stay fun r hr hc => by
            have hrq := huniq r (List.mem_cons_of_mem _ hr) hc
            rw [hrq] at hc
            exact absurd hc hcq
        have hstep : deleteIno parent name (p :: t)
            = t.foldl (fun acc r => if delCond parent name r then r.1 else acc) 0 := by
          simp [deleteIno, List.foldl_cons, hcp]
        rw [hstep, h0, if_neg hcq]
      · have := ih hq' fun r hr hc => huniq r (List.mem_cons_of_mem _ hr) hc
        simpa [deleteIno, List.foldl_cons, hcp] using this

theorem deleteIno_none {parent : Nat} {name : String} {l : List (Nat × File)}
    (h : ∀ p ∈ l, delCond parent name p = false) :
    deleteIno parent name l = 0 :=
  foldl_stay fun p hp hc => absurd hc (by rw [h p hp]; simp)

theorem deleteIno_cases (parent : Nat) (name : String) (l : List (Nat × File)) :
    deleteIno parent name l = 0 ∨
      ∃ p ∈ l, delCond parent name p = true ∧ deleteIno parent name l = p.1 := by
  suffices haux : ∀ (a : Nat),
      l.foldl (fun acc p => if delCond parent name p then p.1 else acc) a = a ∨
      ∃ p ∈ l, delCond parent name p = true ∧
        l.foldl (fun acc p => if delCond parent name p then p.1 else acc) a = p.1 by
    exact haux 0
  induction l with
  | nil => intro a; exact Or.inl rfl
  | cons p t ih =>
    intro a
    by_cases hp : delCond parent name p = true
    · rcases ih p.1 with h | ⟨q, hq, hc, he⟩
      · exact Or.inr ⟨p, List.mem_cons_self _ _, hp, by
          simpa [List.foldl_cons, hp] using h⟩
      · exact Or.inr ⟨q, List.mem_cons_of_mem _ hq, hc, by
          simpa [List.foldl_cons, hp] using he⟩
    · rcases ih a with h | ⟨q, hq, hc, he⟩
      · exact Or.inl (by simpa [List.foldl_cons, hp] using h)
      · exact Or.inr ⟨q, List.mem_cons_of_mem _ hq, hc, by
          simpa [List.foldl_cons, hp] using he⟩

/-- Membership transport through `alistModify`: an entry of the original
list is either still present unchanged, or it was the first entry under
the modified key (the one `alistGet` returns) and reappears with `g`
applied. -/
theorem alistModify_mem_of_mem {α : Type} {q : Nat × α} {k : Nat} {g : α → α} :
    ∀ {l : List (Nat × α)}, q ∈ l →
      q ∈ alistModify k g l ∨
        (q.1 = k ∧ alistGet k l = some q.2 ∧ (q.1, g q.2) ∈ alistModify k g l) := by
  intro l
  induction l with
  | nil => intro h; cases h
  | cons p t ih =>
    intro h
    by_cases hp : p.1 = k
    · rw [show alistModify k g (p :: t) = (p.1, g p.2) :: t by
        simp [alistModify, hp]]
      rcases List.mem_cons.mp h with h' | h'
      · subst h'
        exact Or.inr ⟨hp, by simp [alistGet, hp], List.mem_cons_self _ _⟩
      · exact Or.inl (List.mem_cons_of_mem _ h')
    · rw [show alistModify k g (p :: t) = p :: alistModify k g t by
        simp [alistModify, hp]]
      rcases List.mem_cons.mp h with h' | h'
      · exact Or.inl (List.mem_cons.mpr (Or.inl h'))
      · rcases ih h' with h'' | ⟨hk, hg, hm⟩
        · exact Or.inl (List.mem_cons_of_mem _ h'')
        · exact Or.inr ⟨hk, by simpa [alistGet, hp] using hg,
            List.mem_cons_of_mem _ hm⟩

/-! ### Case shapes of `unlink` -/

theorem unlink_fst (fs : MemFS) (parent : Nat) (name : String) :
    (unlink fs parent name).1
      = fs.inodes.any (fun p => hasEntry parent name p.2.hard_links) := by
  simp only [unlink]
  split <;> rfl

theorem unlink_inodes_cases (fs : MemFS) (parent : Nat) (name : String) :
    (unlink fs parent name).2.inodes
      = if deleteIno parent name fs.inodes ≠ 0 then
          alistErase (deleteIno parent name fs.inodes)
            (fs.inodes.map (fun p => (p.1, unlinkFile parent name p.2)))
        else fs.inodes.map (fun p => (p.1, unlinkFile parent name p.2)) := by
  simp only [unlink]
  split
  · next h => simp [h]
  · next h => simp [h]

theorem unlink_datas_cases (fs : MemFS) (parent : Nat) (name : String) :
    (unlink fs parent name).2.datas
      = if deleteIno parent name fs.inodes ≠ 0 then
          alistErase (deleteIno parent name fs.inodes) fs.datas
        else fs.datas := by
  simp only [unlink]
  split
  · next h => simp [h]
  · next h => simp [h]

/-! ### Lemmas about directory enumeration -/

theorem linkEntries_map_off (ino : Nat) (f : File) :
    ∀ (l : List HardLink) (off : Nat),
      (linkEntries ino f l off).map DirEntry.off
        = List.range' off (linkEntries ino f l off).length := by
  intro l
  induction l with
  | nil => intro off; rfl
  | cons h t ih =>
    intro off
    by_cases hp : h.parent_ino = ino
    · simp only [linkEntries, hp, if_true, List.map_cons, List.length_cons,
        ih (off + 1), List.range'_succ]
    · simp only [linkEntries, hp, if_false]
      exact ih off

theorem inodeEntries_map_off (ino : Nat) :
    ∀ (l : List (Nat × File)) (off : Nat),
      (inodeEntries ino l off).map DirEntry.off
        = List.range' off (inodeEntries ino l off).length := by
  intro l
  induction l with
  | nil => intro off; rfl
  | cons p t ih =>
    intro off
    simp only [inodeEntries, List.map_append, List.length_append]
    rw [linkEntries_map_off, ih, List.range'_append_1]
    exact congrArg (List.range' off) (Nat.add_comm _ _)

theorem linkEntries_nil {ino : Nat} {f : File} :
    ∀ {l : List HardLink} {off : Nat}, (∀ h ∈ l, h.parent_ino ≠ ino) →
      linkEntries ino f l off = [] := by
  intro l
  induction l with
  | nil => intro _ _; rfl
  | cons h t ih =>
    intro off hall
    have hp : ¬ h.parent_ino = ino := hall h (List.mem_cons_self _ _)
    simp only [linkEntries, hp, if_false]
    exact ih fun e he => hall e (List.mem_cons_of_mem _ he)

theorem inodeEntries_nil {ino : Nat} :
    ∀ {l : List (Nat × File)} {off : Nat},
      (∀ p ∈ l, ∀ h ∈ p.2.hard_links, h.parent_ino ≠ ino) →
      inodeEntries ino l off = [] := by
  intro l
  induction l with
  | nil => intro _ _; rfl
  | cons p t ih =>
    intro off hall
    simp only [inodeEntries,
      linkEntries_nil (hall p (List.mem_cons_self _ _)), List.nil_append,
      List.length_nil, Nat.add_zero]
    exact ih fun q hq => hall q (List.mem_cons_of_mem _ hq)

theorem mem_linkEntries {ino : Nat} {f : File} :
    ∀ {l : List HardLink} {off : Nat} {e : DirEntry},
      e ∈ linkEntries ino f l off →
      ∃ h ∈ l, h.parent_ino = ino ∧ e.ino = f.attr.ino ∧
        e.kind = f.attr.kind ∧ e.name = h.name := by
  intro l
  induction l with
  | nil => intro off e he; cases he
  | cons h t ih =>
    intro off e he
    by_cases hp : h.parent_ino = ino
    · rw [show linkEntries ino f (h :: t) off
          = ⟨f.attr.ino, off, f.attr.kind, h.name⟩ :: linkEntries ino f t (off + 1) by
        simp [linkEntries, hp]] at he
      rcases List.mem_cons.mp he with he' | he'
      · exact ⟨h, List.mem_cons_self _ _, hp, by rw [he'], by rw [he'], by rw [he']⟩
      · rcases ih he' with ⟨h', hm, hh⟩
        exact ⟨h', List.mem_cons_of_mem _ hm, hh⟩
    · rw [show linkEntries ino f (h :: t) off = linkEntries ino f t off by
        simp [linkEntries, hp]] at he
      rcases ih he with ⟨h', hm, hh⟩
      exact ⟨h', List.mem_cons_of_mem _ hm, hh⟩

theorem mem_inodeEntries {ino : Nat} :
    ∀ {l : List (Nat × File)} {off : Nat} {e : DirEntry},
      e ∈ inodeEntries ino l off →
      ∃ p ∈ l, ∃ h ∈ p.2.hard_links, h.parent_ino = ino ∧
        e.ino = p.2.attr.ino ∧ e.kind = p.2.attr.kind ∧ e.name = h.name := by
  intro l
  induction l with
  | nil => intro off e he; cases he
  | cons p t ih =>
    intro off e he
    rcases List.mem_append.mp (by simpa [inodeEntries] using he) with he' | he'
    · rcases mem_linkEntries he' with ⟨h, hm, hh⟩
      exact ⟨p, List.mem_cons_self _ _, h, hm, hh⟩
    · rcases ih he' with ⟨q, hq, h, hm, hh⟩
      exact ⟨q, List.mem_cons_of_mem _ hq, h, hm, hh⟩

theorem linkEntries_proj (ino : Nat) (f : File) :
    ∀ (l : List HardLink) (off : Nat),
      (linkEntries ino f l off).map (fun e => (e.ino, e.kind, e.name))
        = (l.filter (fun h => h.parent_ino = ino)).map
            (fun h => (f.attr.ino, f.attr.kind, h.name)) := by
  intro l
  induction l with
  | nil => intro off; rfl
  | cons h t ih =>
    intro off
    by_cases hp : h.parent_ino = ino
    · simp [linkEntries, hp, List.filter_cons, ih (off + 1)]
    · simp [linkEntries, hp, List.filter_cons, ih off]

theorem inodeEntries_proj (ino : Nat) :
    ∀ (l : List (Nat × File)) (off : Nat),
      (inodeEntries ino l off).map (fun e => (e.ino, e.kind, e.name))
        = (l.map (fun p =>
            (p.2.hard_links.filter (fun h => h.parent_ino = ino)).map
              (fun h => (p.2.attr.ino, p.2.attr.kind, h.name)))).flatten := by
  intro l
  induction l with
  | nil => intro off; rfl
  | cons p t ih =>
    intro off
    simp only [inodeEntries, List.map_append, List.map_cons, List.flatten_cons,
      linkEntries_proj, ih]

theorem linkEntries_complete {ino : Nat} {f : File} :
    ∀ {l : List HardLink} {off : Nat} {h : HardLink}, h ∈ l →
      h.parent_ino = ino →
      ∃ e ∈ linkEntries ino f l off,
        e.ino = f.attr.ino ∧ e.kind = f.attr.kind ∧ e.name = h.name := by
  intro l
  induction l with
  | nil => intro off h hm; cases hm
  | cons h0 t ih =>
    intro off h hm hp
    by_cases hp0 : h0.parent_ino = ino
    · rw [show linkEntries ino f (h0 :: t) off
          = ⟨f.attr.ino, off, f.attr.kind, h0.name⟩ ::
              linkEntries ino f t (off + 1) by
        simp [linkEntries, hp0]]
      rcases List.mem_cons.mp hm with hm' | hm'
      · exact ⟨⟨f.attr.ino, off, f.attr.kind, h0.name⟩, List.mem_cons_self _ _,
          rfl, rfl, by rw [hm']⟩
      · rcases ih hm' hp with ⟨e, he, hprop⟩
        exact ⟨e, List.mem_cons_of_mem _ he, hprop⟩
    · rw [show linkEntries ino f (h0 :: t) off = linkEntries ino f t off by
        simp [linkEntries, hp0]]
      rcases List.mem_cons.mp hm with hm' | hm'
      · exact absurd (by rw [← hm']; exact hp) hp0
      · exact ih hm' hp

theorem inodeEntries_complete {ino : Nat} :
    ∀ {l : List (Nat × File)} {off : Nat} {p : Nat × File} {h : HardLink},
      p ∈ l → h ∈ p.2.hard_links → h.parent_ino = ino →
      ∃ e ∈ inodeEntries ino l off,
        e.ino = p.2.attr.ino ∧ e.kind = p.2.attr.kind ∧ e.name = h.name := by
  intro l
  induction l with
  | nil => intro off p h hm; cases hm
  | cons q t ih =>
    intro off p h hm hh hp
    rcases List.mem_cons.mp hm with hm' | hm'
    · subst hm'
      rcases linkEntries_complete hh hp with ⟨e, he, hprop⟩
      exact ⟨e, by simp only [inodeEntries]; exact List.mem_append_left _ he,
        hprop⟩
    · rcases ih hm' hh hp with ⟨e, he, hprop⟩
      exact ⟨e, by simp only [inodeEntries]; exact List.mem_append_right _ he,
        hprop⟩

/-! ### Claim theorems -/

/-- Claim C7 (confirmed): `rmdir(parent, name)` produces exactly the same
state transition and result as `unlink(parent, name)` for every state and
arguments; in particular `rmdir` on a directory that still has a child
(`exDirState`: directory 5 contains file 6) succeeds, removes the
directory's link entry and inode, leaves the child in the table, and
performs no emptiness check. -/
theorem rmdir_equals_unlink :
    (∀ (fs : MemFS) (parent : Nat) (name : String),
      rmdir fs parent name = unlink fs parent name) ∧
    (rmdir exDirState 1 "d").1 = true ∧
    alistGet 5 (rmdir exDirState 1 "d").2.inodes = none ∧
    (alistGet 6 (rmdir exDirState 1 "d").2.inodes).isSome = true ∧
    inodeEntries 5 exDirState.inodes 2 ≠ [] := by
  refine ⟨fun _ _ _ => rfl, ?_, ?_, ?_, ?_⟩ <;> decide

/-- Claim C8 (amended): for every inode, `readdir` with any offset `≤ 0`
restarts the enumeration (not only offset 0, which is the amendment
forced by `readdir_negative_offset_restarts`): the listing starts with
`.` at offset 0 and `..` at offset 1, continues with exactly the
directory's real children at increasing offsets from 2 — every entry
after `.`/`..` comes from a hard link whose parent is the inode, every
such hard link appears, and the (inode, kind, name) sequence equals the
table-order flattening of the matching hard links — is exactly `.` and
`..` when the inode has no children, and a call with offset `> 0` yields
nothing. -/
theorem readdir_listing_spec (fs : MemFS) (ino : Nat) :
    (∀ off : Int, 0 < off → readdir fs ino off = []) ∧
    (∀ off : Int, off ≤ 0 → readdir fs ino off = readdir fs ino 0) ∧
    (readdir fs ino 0).take 2
      = [⟨1, 0, .Directory, "."⟩, ⟨2, 1, .Directory, ".."⟩] ∧
    (readdir fs ino 0).map DirEntry.off = List.range (readdir fs ino 0).length ∧
    ((∀ p ∈ fs.inodes, ∀ h ∈ p.2.hard_links, h.parent_ino ≠ ino) →
      readdir fs ino 0 = [⟨1, 0, .Directory, "."⟩, ⟨2, 1, .Directory, ".."⟩]) ∧
    (∀ e ∈ (readdir fs ino 0).drop 2, ∃ p ∈ fs.inodes, ∃ h ∈ p.2.hard_links,
      h.parent_ino = ino ∧ e.ino = p.2.attr.ino ∧ e.kind = p.2.attr.kind ∧
      e.name = h.name) ∧
    (∀ p ∈ fs.inodes, ∀ h ∈ p.2.hard_links, h.parent_ino = ino →
      ∃ e ∈ (readdir fs ino 0).drop 2, e.ino = p.2.attr.ino ∧
        e.kind = p.2.attr.kind ∧ e.name = h.name) ∧
    ((readdir fs ino 0).drop 2).map (fun e => (e.ino, e.kind, e.name))
      = (fs.inodes.map (fun p =>
          (p.2.hard_links.filter (fun h => h.parent_ino = ino)).map
            (fun h => (p.2.attr.ino, p.2.attr.kind, h.name)))).flatten := by
  have hzero : readdir fs ino 0
      = ⟨1, 0, .Directory, "."⟩ :: ⟨2, 1, .Directory, ".."⟩ ::
          inodeEntries ino fs.inodes 2 := by
    simp [readdir]
  refine ⟨?_, ?_, ?_, ?_, ?_, ?_, ?_, ?_⟩
  · intro off h
    simp [readdir, h]
  · intro off h
    rw [hzero]
    simp [readdir, not_lt.mpr h]
  · rw [hzero]
    rfl
  · rw [hzero]
    simp only [List.map_cons, List.length_cons]

    rw [inodeEntries_map_off, List.range_eq_range', List.range'_succ,
      List.range'_succ]
  · intro h
    rw [hzero, inodeEntries_nil h]
  · intro e he
    rw [hzero] at he
    exact mem_inodeEntries (by simpa using he)
  · intro p hp h hh hpar
    rw [hzero]
    simp only [List.drop_succ_cons, List.drop_zero]
    exact inodeEntries_complete hp hh hpar
  · rw [hzero]
    simp only [List.drop_succ_cons, List.drop_zero]
    exact inodeEntries_proj ino fs.inodes 2

/-- Witness for `readdir_listing_spec`: at the startup state and inode 1,
a positive offset yields nothing, and the root (having no children)
lists exactly `.` and `..`. -/
theorem readdir_listing_spec_witness :
    readdir (initState 0) 1 1 = [] ∧
    readdir (initState 0) 1 0
      = [⟨1, 0, .Directory, "."⟩, ⟨2, 1, .Directory, ".."⟩] :=
  ⟨(readdir_listing_spec (initState 0) 1).1 1 (by decide),
   (readdir_listing_spec (initState 0) 1).2.2.2.2.1 (by decide)⟩

/-- Counterexample to claim C8 as stated: offset 0 is not the only offset
that restarts the enumeration — a negative offset also yields the full
listing (the `if offset > 0` guard lets `-1` through). -/
theorem readdir_negative_offset_restarts :
    readdir (initState 0) 1 (-1) = readdir (initState 0) 1 0 ∧
    readdir (initState 0) 1 (-1) ≠ [] := by
  refine ⟨?_, ?_⟩ <;> decide

/-- Claim C10 (confirmed): for every state and every inode passed to
`readdir`, the two synthesized entries carry fixed inode numbers — `.` is
reported with inode 1 and `..` with inode 2 — regardless of which
directory is listed and of its actual parent. -/
theorem readdir_synthesized_inode_numbers (fs : MemFS) (ino : Nat) :
    (readdir fs ino 0).take 2
      = [⟨1, 0, .Directory, "."⟩, ⟨2, 1, .Directory, ".."⟩] := by
  simp [readdir]

/-- Claim C1 (amended): for every state, writing a valid-UTF-8 byte
sequence B to an inode that is present with kind regular file succeeds,
reports B.length bytes written, and a subsequent read returns exactly B.
(The amendment restricts the round trip to present regular-file inodes;
`write_succeeds_read_fails` shows a successful write whose read then
fails.) -/
theorem write_read_roundtrip (fs : MemFS) (ino : Nat) (B : List Nat) (f : File)
    (hv : validUtf8 B = true) (hf : alistGet ino fs.inodes = some f)
    (hk : f.attr.kind = .RegularFile) :
    ∃ fs', write fs ino B = some (B.length, fs') ∧ read fs' ino = some B := by
  refine ⟨⟨alistModify ino (writeUpd B.length) fs.inodes,
      alistInsert ino B fs.datas⟩, ?_, ?_⟩
  · simp [write, hv]
  · have h1 : alistGet ino (alistModify ino (writeUpd B.length) fs.inodes)
        = some (writeUpd B.length f) := by
      rw [alistGet_modify_self, hf]
      rfl
    have hk1 : (writeUpd B.length f).attr.kind = .RegularFile := hk
    simp only [read, h1, hk1]
    simp [alistGet_insert_self]

/-- Witness for `write_read_roundtrip`: writing "hi" to the regular file
created at inode 2 round-trips. -/
theorem write_read_roundtrip_witness :
    ∃ fs', write exFileState 2 [104, 105] = some (2, fs') ∧
      read fs' 2 = some [104, 105] :=
  write_read_roundtrip exFileState 2 [104, 105] exFile (by decide) (by decide)
    (by decide)

/-- Counterexample to claim C1 as stated: with only the root present, a
write to inode 5 succeeds (it reports 1 byte written), yet the read that
follows returns AccessDenied (`none`), not the byte sequence. -/
theorem write_succeeds_read_fails :
    (write (initState 0) 5 [97]).isSome = true ∧
    read ((write (initState 0) 5 [97]).getD (0, initState 0)).2 5 = none := by
  refine ⟨?_, ?_⟩ <;> decide

/-- Claim C2 (amended): `link(ino, newparent, newname)` fails with
NotFound when the source inode is missing, fails with AlreadyExists
exactly when the pair is already a link entry of the source inode itself
— other inodes' entries are not consulted, the amendment forced by
`link_ignores_other_inodes` — and otherwise appends the entry, increments
the source's link count, and leaves every other inode and the content
store unchanged. -/
theorem link_spec (fs : MemFS) (ino newparent : Nat) (newname : String) :
    (alistGet ino fs.inodes = none →
      link fs ino newparent newname = (.enoent, fs)) ∧
    (∀ f, alistGet ino fs.inodes = some f →
      hasEntry newparent newname f.hard_links = true →
      link fs ino newparent newname = (.eexist, fs)) ∧
    (∀ f, alistGet ino fs.inodes = some f →
      hasEntry newparent newname f.hard_links = false →
      (link fs ino newparent newname).1
          = .entry (linkUpd newparent newname f).attr f.generation ∧
      alistGet ino (link fs ino newparent newname).2.inodes
          = some (linkUpd newparent newname f) ∧
      (∀ j, j ≠ ino → alistGet j (link fs ino newparent newname).2.inodes
          = alistGet j fs.inodes) ∧
      (link fs ino newparent newname).2.datas = fs.datas) := by
  refine ⟨?_, ?_, ?_⟩
  · intro h
    simp [link, h]
  · intro f hf he
    simp [link, hf, he]
  · intro f hf he
    refine ⟨by simp [link, hf, he], ?_, ?_, by simp [link, hf, he]⟩
    · simp only [link, hf, he, Bool.false_eq_true, if_false]
      rw [alistGet_modify_self, hf]
      rfl
    · intro j hj
      simp only [link, hf, he, Bool.false_eq_true, if_false]
      exact alistGet_modify_ne ino j _ fs.inodes hj

/-- Witness for `link_spec`: linking inode 2 under the root as "b"
succeeds and leaves the content store untouched. -/
theorem link_spec_witness :
    (link exFileState 2 1 "b").1
        = .entry (linkUpd 1 "b" exFile).attr exFile.generation ∧
    (link exFileState 2 1 "b").2.datas = exFileState.datas :=
  ⟨((link_spec exFileState 2 1 "b").2.2 exFile (by decide) (by decide)).1,
   ((link_spec exFileState 2 1 "b").2.2 exFile (by decide) (by decide)).2.2.2⟩

/-- Counterexample to claim C2 as stated: in `exTwoFiles` the pair
(1, "a") is already a link entry of inode 2, yet `link(3, 1, "a")` does
not fail with AlreadyExists (nor NotFound) — only the source inode's own
entries are checked. -/
theorem link_ignores_other_inodes :
    (∃ p ∈ exTwoFiles.inodes, p.1 ≠ 3 ∧ hasEntry 1 "a" p.2.hard_links = true) ∧
    (link exTwoFiles 3 1 "a").1 ≠ .eexist ∧
    (link exTwoFiles 3 1 "a").1 ≠ .enoent := by
  refine ⟨?_, ?_, ?_⟩ <;> decide

/-- Claim C5 (amended): `write` and `setattr` on a present inode
increment its generation counter by one (hence strictly increase it),
while `link` and `unlink` leave the generation of every surviving inode
unchanged — link-count changes do not touch the generation, the amendment
forced by `link_leaves_generation`. -/
theorem generation_mutation_spec (fs : MemFS) (ino : Nat) :
    (∀ B n fs' f, write fs ino B = some (n, fs') →
      alistGet ino fs.inodes = some f →
      ∃ f', alistGet ino fs'.inodes = some f' ∧
        f'.generation = f.generation + 1) ∧
    (∀ size uid gid mtime flags f, alistGet ino fs.inodes = some f →
      ∃ f', alistGet ino (setattr fs ino size uid gid mtime flags).2.inodes
          = some f' ∧ f'.generation = f.generation + 1) ∧
    (∀ newparent newname j f',
      alistGet j (link fs ino newparent newname).2.inodes = some f' →
      ∃ f, alistGet j fs.inodes = some f ∧ f'.generation = f.generation) ∧
    (∀ parent name j f',
      alistGet j (unlink fs parent name).2.inodes = some f' →
      ∃ f, alistGet j fs.inodes = some f ∧ f'.generation = f.generation) := by
  refine ⟨?_, ?_, ?_, ?_⟩
  · intro B n fs' f hw hf
    by_cases hv : validUtf8 B = true
    · simp only [write, hv, if_true, Option.some.injEq, Prod.mk.injEq] at hw
      rw [← hw.2]
      refine ⟨writeUpd B.length f, ?_, rfl⟩
      show alistGet ino (alistModify ino (writeUpd B.length) fs.inodes) = _
      rw [alistGet_modify_self, hf]
      rfl
    · simp [write, hv] at hw
  · intro size uid gid mtime flags f hf
    simp only [setattr, hf]
    have h1 := alistGet_modify_self ino (setattrUpd { f.attr with
      size := size.getD f.attr.size, uid := uid.getD f.attr.uid,
      gid := gid.getD f.attr.gid, mtime := mtime.getD f.attr.mtime,
      flags := flags.getD f.attr.flags }) fs.inodes
    rw [hf] at h1
    exact ⟨_, h1, rfl⟩
  · intro newparent newname j f' h
    cases hm : alistGet ino fs.inodes with
    | none =>
      rw [show (link fs ino newparent newname).2 = fs by simp [link, hm]] at h
      exact ⟨f', h, rfl⟩
    | some f0 =>
      by_cases he : hasEntry newparent newname f0.hard_links = true
      · rw [show (link fs ino newparent newname).2 = fs by simp [link, hm, he]]
          at h
        exact ⟨f', h, rfl⟩
      · rw [show (link fs ino newparent newname).2.inodes
            = alistModify ino (linkUpd newparent newname) fs.inodes by
          simp [link, hm, he]] at h
        by_cases hj : j = ino
        · subst hj
          rw [alistGet_modify_self, hm] at h
          refine ⟨f0, hm, ?_⟩
          simp only [Option.map_some'] at h
          rw [← Option.some.injEq] at h
          cases h
          rfl
        · rw [alistGet_modify_ne ino j _ fs.inodes hj] at h
          exact ⟨f', h, rfl⟩
  · intro parent name j f' h
    rw [unlink_inodes_cases] at h
    by_cases hd : deleteIno parent name fs.inodes ≠ 0
    · rw [if_pos hd] at h
      by_cases hj : j = deleteIno parent name fs.inodes
      · rw [hj, alistGet_erase_self] at h
        cases h
      · rw [alistGet_erase_ne _ _ _ hj, alistGet_map] at h
        rcases Option.map_eq_some'.mp h with ⟨f0, hf0, hu⟩
        exact ⟨f0, hf0, by rw [← hu, unlinkFile_generation]⟩
    · rw [if_neg hd, alistGet_map] at h
      rcases Option.map_eq_some'.mp h with ⟨f0, hf0, hu⟩
      exact ⟨f0, hf0, by rw [← hu, unlinkFile_generation]⟩

/-- Witness for `generation_mutation_spec`: a no-field `setattr` on the
file at inode 2 bumps its generation from 0 to 1. -/
theorem generation_mutation_spec_witness :
    ∃ f', alistGet 2 (setattr exFileState 2 none none none none none).2.inodes
        = some f' ∧ f'.generation = exFile.generation + 1 :=
  (generation_mutation_spec exFileState 2).2.1 none none none none none exFile
    (by decide)

/-- Counterexample to claim C5 as stated: a successful `link` of a new
entry for inode 2 leaves its generation at 0 — the link-count change does
not increase the generation counter. -/
theorem link_leaves_generation :
    (link exFileState 2 1 "b").1 ≠ .enoent ∧
    (link exFileState 2 1 "b").1 ≠ .eexist ∧
    (alistGet 2 (link exFileState 2 1 "b").2.inodes).map File.generation
        = some 0 ∧
    (alistGet 2 exFileState.inodes).map File.generation = some 0 := by
  refine ⟨?_, ?_, ?_, ?_⟩ <;> decide

/-! ### Preservation of the link-count bookkeeping -/

theorem mem_alistModify_get {α : Type} {p : Nat × α} {k : Nat} {g : α → α} :
    ∀ {l : List (Nat × α)}, p ∈ alistModify k g l →
      p ∈ l ∨ ∃ v, alistGet k l = some v ∧ p = (k, g v) := by
  intro l
  induction l with
  | nil => intro h; cases h
  | cons q t ih =>
    intro h
    by_cases hq : q.1 = k
    · rw [show alistModify k g (q :: t) = (q.1, g q.2) :: t by
        simp [alistModify, hq]] at h
      rcases List.mem_cons.mp h with h' | h'
      · exact Or.inr ⟨q.2, by simp [alistGet, hq], by rw [h', hq]⟩
      · exact Or.inl (List.mem_cons_of_mem _ h')
    · rw [show alistModify k g (q :: t) = q :: alistModify k g t by
        simp [alistModify, hq]] at h
      rcases List.mem_cons.mp h with h' | h'
      · exact Or.inl (List.mem_cons.mpr (Or.inl h'))
      · rcases ih h' with h'' | ⟨v, hv, he⟩
        · exact Or.inl (List.mem_cons_of_mem _ h'')
        · exact Or.inr ⟨v, by simpa [alistGet, hq] using hv, he⟩

theorem linkCountInv_init (t : Nat) : linkCountInv (initState t) := by
  intro p hp
  simp only [initState, List.mem_singleton] at hp
  subst hp
  simp [new_file_attr]

theorem linkCountInv_of_insert {fs fs' : MemFS} {k0 : Nat} {f0 : File}
    (h : linkCountInv fs)
    (hf : f0.attr.nlink
        = f0.hard_links.length + (if f0.attr.kind = .Directory then 1 else 0))
    (heq : fs'.inodes = alistInsert k0 f0 fs.inodes) : linkCountInv fs' := by
  intro p hp
  rw [heq] at hp
  rcases mem_alistInsert hp with he | hm
  · rw [he]
    exact hf
  · exact h p hm

theorem linkCountInv_of_modify {fs fs' : MemFS} {k0 : Nat} {g : File → File}
    (h : linkCountInv fs)
    (hg : ∀ v, (k0, v) ∈ fs.inodes → alistGet k0 fs.inodes = some v →
      (g v).attr.nlink
        = (g v).hard_links.length + (if (g v).attr.kind = .Directory then 1 else 0))
    (heq : fs'.inodes = alistModify k0 g fs.inodes) : linkCountInv fs' := by
  intro p hp
  rw [heq] at hp
  rcases mem_alistModify_get hp with hm | ⟨v, hv, he⟩
  · exact h p hm
  · rw [he]
    exact hg v (alistGet_mem hv) hv

theorem linkCountInv_unlink (fs : MemFS) (parent : Nat) (name : String)
    (h : linkCountInv fs) : linkCountInv (unlink fs parent name).2 := by
  intro p hp
  rw [unlink_inodes_cases] at hp
  have hmap : p ∈ fs.inodes.map (fun q => (q.1, unlinkFile parent name q.2)) := by
    by_cases hd : deleteIno parent name fs.inodes ≠ 0
    · rw [if_pos hd] at hp
      exact (mem_alistErase hp).1
    · rw [if_neg hd] at hp
      exact hp
  rcases List.mem_map.mp hmap with ⟨q, hq, he⟩
  rw [← he]
  by_cases hm : hasEntry parent name q.2.hard_links = true
  · have hinv := h q hq
    have hlen := removeFirstByName_length (hasEntry_name hm)
    simp only [unlinkFile, hm, if_true]
    by_cases hk : q.2.attr.kind = .Directory <;> simp only [hk, if_true, if_false] <;>
      simp only [hk, if_true, if_false] at hinv <;> omega
  · have hm' : hasEntry parent name q.2.hard_links = false := by
      simpa using hm
    rw [unlinkFile_no_match hm']
    exact h q hq

/-- Claim C3 (amended): the bookkeeping the code actually maintains is
`nlink = |link-entry set| + 1` for directory inodes and
`nlink = |link-entry set|` for every other kind (a directory is born with
nlink 2 but a single link entry, the amendment forced by
`root_link_count_mismatch`); this invariant holds in the startup state
and is preserved by create, mkdir, symlink, setattr, write, link, unlink
and rmdir. -/
theorem link_count_invariant :
    (∀ t, linkCountInv (initState t)) ∧
    (∀ fs newIno parent name uid gid t, linkCountInv fs →
      linkCountInv (create fs newIno parent name uid gid t).2) ∧
    (∀ fs newIno parent name uid gid t, linkCountInv fs →
      linkCountInv (mkdir fs newIno parent name uid gid t).2) ∧
    (∀ fs newIno parent name target uid gid t a fs', linkCountInv fs →
      symlink fs newIno parent name target uid gid t = some (a, fs') →
      linkCountInv fs') ∧
    (∀ fs ino size uid gid mtime flags, linkCountInv fs →
      linkCountInv (setattr fs ino size uid gid mtime flags).2) ∧
    (∀ fs ino B n fs', linkCountInv fs → write fs ino B = some (n, fs') →
      linkCountInv fs') ∧
    (∀ fs ino newparent newname, linkCountInv fs →
      linkCountInv (link fs ino newparent newname).2) ∧
    (∀ fs parent name, linkCountInv fs →
      linkCountInv (unlink fs parent name).2) ∧
    (∀ fs parent name, linkCountInv fs →
      linkCountInv (rmdir fs parent name).2) := by
  refine ⟨linkCountInv_init, ?_, ?_, ?_, ?_, ?_, ?_,
    fun fs parent name h => linkCountInv_unlink fs parent name h,
    fun fs parent name h => linkCountInv_unlink fs parent name h⟩
  · intro fs newIno parent name uid gid t h
    exact linkCountInv_of_insert h (by simp [new_file_attr]) rfl
  · intro fs newIno parent name uid gid t h
    exact linkCountInv_of_insert h (by simp [new_file_attr]) rfl
  · intro fs newIno parent name target uid gid t a fs' h hs
    by_cases hv : validUtf8 target = true
    · simp only [symlink, hv, if_true, Option.some.injEq, Prod.mk.injEq] at hs
      have heq : fs'.inodes = alistInsert newIno
          ⟨[⟨parent, name⟩], new_file_attr newIno 0 .Symlink uid gid t, 0⟩
          fs.inodes := by
        rw [← hs.2]
      exact linkCountInv_of_insert h (by simp [new_file_attr]) heq
    · simp [symlink, hv] at hs
  · intro fs ino size uid gid mtime flags h
    cases hm : alistGet ino fs.inodes with
    | none =>
      have heq : (setattr fs ino size uid gid mtime flags).2 = fs := by
        simp [setattr, hm]
      rw [heq]
      exact h
    | some f =>
      have heq : (setattr fs ino size uid gid mtime flags).2.inodes
          = alistModify ino (setattrUpd { f.attr with
              size := size.getD f.attr.size, uid := uid.getD f.attr.uid,
              gid := gid.getD f.attr.gid, mtime := mtime.getD f.attr.mtime,
              flags := flags.getD f.attr.flags }) fs.inodes := by
        simp [setattr, hm]
      refine linkCountInv_of_modify h ?_ heq
      intro v _ hvget
      rw [hm] at hvget
      cases hvget
      have hinv := h (ino, f) (alistGet_mem hm)
      simpa [setattrUpd] using hinv
  · intro fs ino B n fs' h hw
    by_cases hv : validUtf8 B = true
    · simp only [write, hv, if_true, Option.some.injEq, Prod.mk.injEq] at hw
      have heq : fs'.inodes = alistModify ino (writeUpd B.length) fs.inodes := by
        rw [← hw.2]
      refine linkCountInv_of_modify h ?_ heq
      intro v hvm _
      have hinv := h (ino, v) hvm
      simpa [writeUpd] using hinv
    · simp [write, hv] at hw
  · intro fs ino newparent newname h
    cases hm : alistGet ino fs.inodes with
    | none =>
      have heq : (link fs ino newparent newname).2 = fs := by simp [link, hm]
      rw [heq]
      exact h
    | some f =>
      by_cases he : hasEntry newparent newname f.hard_links = true
      · have heq : (link fs ino newparent newname).2 = fs := by
          simp [link, hm, he]
        rw [heq]
        exact h
      · have heq : (link fs ino newparent newname).2.inodes
            = alistModify ino (linkUpd newparent newname) fs.inodes := by
          simp [link, hm, he]
        refine linkCountInv_of_modify h ?_ heq
        intro v hvm _
        have hinv := h (ino, v) hvm
        simp only [linkUpd, List.length_append, List.length_singleton]
        by_cases hk : v.attr.kind = .Directory <;>
          simp only [hk, if_true, if_false] <;>
          simp only [hk, if_true, if_false] at hinv <;> omega

/-- Witness for `link_count_invariant`: the invariant survives creating a
file at inode 2 in the startup state. -/
theorem link_count_invariant_witness :
    linkCountInv (create (initState 0) 2 1 "a" 501 20 1).2 :=
  link_count_invariant.2.1 (initState 0) 2 1 "a" 501 20 1
    (by unfold linkCountInv; decide)

/-- Counterexample to claim C3 as stated: already in the startup state
the root directory carries link count 2 with a single link entry, so
`nlink = |link-entry set|` fails. -/
theorem root_link_count_mismatch :
    ¬ (∀ p ∈ (initState 0).inodes,
        (p : Nat × File).2.attr.nlink = p.2.hard_links.length) := by
  decide

/-! ### Persistence of the root inode -/

theorem rootOk_congr {fs fs' : MemFS}
    (h : alistGet 1 fs'.inodes = alistGet 1 fs.inodes) :
    rootOk fs' = rootOk fs := by
  unfold rootOk
  rw [h]

theorem rootOk_modify {fs fs' : MemFS} {k0 : Nat} {g : File → File}
    (hkind : ∀ v, alistGet k0 fs.inodes = some v → (g v).attr.kind = v.attr.kind)
    (heq : fs'.inodes = alistModify k0 g fs.inodes)
    (h : rootOk fs = true) : rootOk fs' = true := by
  unfold rootOk at h ⊢
  rw [heq]
  by_cases hk : k0 = 1
  · subst hk
    rw [alistGet_modify_self]
    cases hm : alistGet 1 fs.inodes with
    | none =>
      rw [hm] at h
      cases h
    | some v =>
      rw [hm] at h
      simp only [Option.map_some']
      rw [hkind v hm]
      exact h
  · rw [alistGet_modify_ne _ _ _ _ (fun he => hk he.symm)]
    exact h

theorem delCond_key_free (parent : Nat) (name : String) (k j : Nat) (v : File) :
    delCond parent name (k, v) = delCond parent name (j, v) := rfl

theorem rootOk_unlink (fs : MemFS) (parent : Nat) (name : String)
    (h : rootOk fs = true) (hn : keysNodup fs.inodes)
    (hs : rootUnlinkSafe fs parent name = true) :
    rootOk (unlink fs parent name).2 = true := by
  unfold rootOk at h
  cases hm : alistGet 1 fs.inodes with
  | none =>
    rw [hm] at h
    cases h
  | some f1 =>
    rw [hm] at h
    have hs1 : (!hasEntry parent name f1.hard_links ||
        !(removeFirstByName name f1.hard_links).isEmpty) = true := by
      unfold rootUnlinkSafe at hs
      rw [hm] at hs
      exact hs
    have hdel1 : delCond parent name (1, f1) = false := by
      cases hhe : hasEntry parent name f1.hard_links with
      | false => simp [delCond, hhe]
      | true =>
        cases hie : (removeFirstByName name f1.hard_links).isEmpty with
        | false => simp [delCond, hie]
        | true =>
          rw [hhe, hie] at hs1
          simp at hs1
    have hd1 : deleteIno parent name fs.inodes ≠ 1 := by
      rcases deleteIno_cases parent name fs.inodes with h0 | ⟨p, hp, hc, he⟩
      · omega
      · rw [he]
        intro hk1
        have hget : alistGet p.1 fs.inodes = some p.2 :=
          alistGet_of_mem_nodup hn (by exact hp)
        rw [hk1, hm] at hget
        have hv : p.2 = f1 := by
          cases hget
          rfl
        have hc' : delCond parent name (1, f1) = true := by
          calc delCond parent name (1, f1)
              = delCond parent name (p.1, p.2) := by rw [hv, delCond_key_free]
            _ = delCond parent name p := rfl
            _ = true := hc
        rw [hc'] at hdel1
        cases hdel1
    unfold rootOk
    rw [unlink_inodes_cases]
    by_cases hd : deleteIno parent name fs.inodes ≠ 0
    · rw [if_pos hd, alistGet_erase_ne _ _ _ (fun he => hd1 he.symm),
        alistGet_map, hm]
      simp only [Option.map_some']
      show ((unlinkFile parent name f1).attr.kind == FileType.Directory) = true
      rw [unlinkFile_kind]
      exact h
    · rw [if_neg hd, alistGet_map, hm]
      simp only [Option.map_some']
      show ((unlinkFile parent name f1).attr.kind == FileType.Directory) = true
      rw [unlinkFile_kind]
      exact h

/-- Claim C6 (amended): inode 1 exists as a directory in the startup
state, and this persists under every operation with three provisos the
code imposes: create and symlink must not allocate inode number 1 (the
time-derived allocator could, and would overwrite the root with a
non-directory), and an unlink/rmdir call must not remove inode 1's last
link entry — `unlink_root_removes_inode_one` shows that `unlink(0, "/")`
on the startup state does delete the root, the amendment this forces. -/
theorem root_inode_persistence :
    (∀ t, rootOk (initState t) = true) ∧
    (∀ fs newIno parent name uid gid t, rootOk fs = true → newIno ≠ 1 →
      rootOk (create fs newIno parent name uid gid t).2 = true) ∧
    (∀ fs newIno parent name uid gid t, rootOk fs = true →
      rootOk (mkdir fs newIno parent name uid gid t).2 = true) ∧
    (∀ fs newIno parent name target uid gid t a fs', rootOk fs = true →
      newIno ≠ 1 → symlink fs newIno parent name target uid gid t = some (a, fs') →
      rootOk fs' = true) ∧
    (∀ fs ino size uid gid mtime flags, rootOk fs = true →
      rootOk (setattr fs ino size uid gid mtime flags).2 = true) ∧
    (∀ fs ino B n fs', rootOk fs = true → write fs ino B = some (n, fs') →
      rootOk fs' = true) ∧
    (∀ fs ino newparent newname, rootOk fs = true →
      rootOk (link fs ino newparent newname).2 = true) ∧
    (∀ fs parent name, rootOk fs = true → keysNodup fs.inodes →
      rootUnlinkSafe fs parent name = true →
      rootOk (unlink fs parent name).2 = true) ∧
    (∀ fs parent name, rootOk fs = true → keysNodup fs.inodes →
      rootUnlinkSafe fs parent name = true →
      rootOk (rmdir fs parent name).2 = true) := by
  refine ⟨?_, ?_, ?_, ?_, ?_, ?_, ?_,
    fun fs parent name h hn hs => rootOk_unlink fs parent name h hn hs,
    fun fs parent name h hn hs => rootOk_unlink fs parent name h hn hs⟩
  · intro t
    simp [rootOk, initState, alistGet, new_file_attr]
  · intro fs newIno parent name uid gid t h hne
    rw [rootOk_congr (alistGet_insert_ne newIno 1 _ fs.inodes
      (fun he => hne he.symm))]
    exact h
  · intro fs newIno parent name uid gid t h
    by_cases hne : newIno = 1
    · subst hne
      have hg : alistGet 1 (mkdir fs 1 parent name uid gid t).2.inodes
          = some ⟨[⟨parent, name⟩], new_file_attr 1 0 .Directory uid gid t, 0⟩ :=
        alistGet_insert_self 1 _ fs.inodes
      unfold rootOk
      rw [hg]
      simp [new_file_attr]
    · rw [rootOk_congr (alistGet_insert_ne newIno 1 _ fs.inodes
        (fun he => hne he.symm))]
      exact h
  · intro fs newIno parent name target uid gid t a fs' h hne hs
    by_cases hv : validUtf8 target = true
    · simp only [symlink, hv, if_true, Option.some.injEq, Prod.mk.injEq] at hs
      have heq : alistGet 1 fs'.inodes = alistGet 1 fs.inodes := by
        rw [← hs.2]
        exact alistGet_insert_ne newIno 1 _ fs.inodes (fun he => hne he.symm)
      rw [rootOk_congr heq]
      exact h
    · simp [symlink, hv] at hs
  · intro fs ino size uid gid mtime flags h
    cases hm : alistGet ino fs.inodes with
    | none =>
      have heq : (setattr fs ino size uid gid mtime flags).2 = fs := by
        simp [setattr, hm]
      rw [heq]
      exact h
    | some f =>
      have heq : (setattr fs ino size uid gid mtime flags).2.inodes
          = alistModify ino (setattrUpd { f.attr with
              size := size.getD f.attr.size, uid := uid.getD f.attr.uid,
              gid := gid.getD f.attr.gid, mtime := mtime.getD f.attr.mtime,
              flags := flags.getD f.attr.flags }) fs.inodes := by
        simp [setattr, hm]
      refine rootOk_modify ?_ heq h
      intro v hvget
      rw [hm] at hvget
      cases hvget
      rfl
  · intro fs ino B n fs' h hw
    by_cases hv : validUtf8 B = true
    · simp only [write, hv, if_true, Option.some.injEq, Prod.mk.injEq] at hw
      have heq : fs'.inodes = alistModify ino (writeUpd B.length) fs.inodes := by
        rw [← hw.2]
      refine rootOk_modify ?_ heq h
      intro v _
      rfl
    · simp [write, hv] at hw
  · intro fs ino newparent newname h
    cases hm : alistGet ino fs.inodes with
    | none =>
      have heq : (link fs ino newparent newname).2 = fs := by simp [link, hm]
      rw [heq]
      exact h
    | some f =>
      by_cases he : hasEntry newparent newname f.hard_links = true
      · have heq : (link fs ino newparent newname).2 = fs := by
          simp [link, hm, he]
        rw [heq]
        exact h
      · have heq : (link fs ino newparent newname).2.inodes
            = alistModify ino (linkUpd newparent newname) fs.inodes := by
          simp [link, hm, he]
        refine rootOk_modify ?_ heq h
        intro v _
        rfl

/-- Witness for `root_inode_persistence`: an unlink naming nothing keeps
the root. -/
theorem root_inode_persistence_witness :
    rootOk (unlink (initState 0) 5 "x").2 = true :=
  root_inode_persistence.2.2.2.2.2.2.2.1 (initState 0) 5 "x" (by decide)
    (by unfold keysNodup; decide) (by decide)

/-- Counterexample to claim C6 as stated: the unlink call `(0, "/")`
matches the root's synthetic link entry, empties its link set, and
removes inode 1 from the table. -/
theorem unlink_root_removes_inode_one :
    (unlink (initState 0) 0 "/").1 = true ∧
    alistGet 1 (unlink (initState 0) 0 "/").2.inodes = none := by
  refine ⟨?_, ?_⟩ <;> decide

/-! ### Preservation of the content-kind invariant -/

theorem contentOk_init (t : Nat) : contentOk (initState t) := by
  intro p hp
  cases hp

theorem contentOk_unlink (fs : MemFS) (parent : Nat) (name : String)
    (h : contentOk fs) : contentOk (unlink fs parent name).2 := by
  intro p hp
  rw [unlink_datas_cases] at hp
  rw [unlink_inodes_cases]
  by_cases hd : deleteIno parent name fs.inodes ≠ 0
  · rw [if_pos hd] at hp ⊢
    have hp' := mem_alistErase hp
    rcases h p hp'.1 with ⟨q, hq, hkey, hkind⟩
    refine ⟨(q.1, unlinkFile parent name q.2), ?_, hkey, ?_⟩
    · refine mem_alistErase_of (List.mem_map.mpr ⟨q, hq, rfl⟩) ?_
      show q.1 ≠ deleteIno parent name fs.inodes
      rw [hkey]
      exact hp'.2
    · rcases hkind with hk | hk
      · exact Or.inl (by rw [unlinkFile_kind]; exact hk)
      · exact Or.inr (by rw [unlinkFile_kind]; exact hk)
  · rw [if_neg hd] at hp ⊢
    rcases h p hp with ⟨q, hq, hkey, hkind⟩
    refine ⟨(q.1, unlinkFile parent name q.2),
      List.mem_map.mpr ⟨q, hq, rfl⟩, hkey, ?_⟩
    rcases hkind with hk | hk
    · exact Or.inl (by rw [unlinkFile_kind]; exact hk)
    · exact Or.inr (by rw [unlinkFile_kind]; exact hk)

/-- Claim C9 (amended): the invariant "content exists only for inodes
present with kind regular-file or symlink" holds at startup and is
preserved by create, symlink, setattr, link, unlink and rmdir, and by
mkdir when the allocated inode number carries no content; it is NOT
preserved by write, which attaches content to any inode number — in
particular a write addressed to an absent inode reports the bytes written
AND leaves content keyed by the nonexistent inode
(`write_orphan_content`, the amendment this forces). -/
theorem content_kind_invariant :
    (∀ t, contentOk (initState t)) ∧
    (∀ fs newIno parent name uid gid t, contentOk fs →
      contentOk (create fs newIno parent name uid gid t).2) ∧
    (∀ fs newIno parent name uid gid t, contentOk fs →
      (∀ p ∈ fs.datas, (p : Nat × List Nat).1 ≠ newIno) →
      contentOk (mkdir fs newIno parent name uid gid t).2) ∧
    (∀ fs newIno parent name target uid gid t a fs', contentOk fs →
      symlink fs newIno parent name target uid gid t = some (a, fs') →
      contentOk fs') ∧
    (∀ fs ino size uid gid mtime flags, contentOk fs →
      contentOk (setattr fs ino size uid gid mtime flags).2) ∧
    (∀ fs ino newparent newname, contentOk fs →
      contentOk (link fs ino newparent newname).2) ∧
    (∀ fs parent name, contentOk fs →
      contentOk (unlink fs parent name).2) ∧
    (∀ fs parent name, contentOk fs →
      contentOk (rmdir fs parent name).2) := by
  refine ⟨contentOk_init, ?_, ?_, ?_, ?_, ?_,
    fun fs parent name h => contentOk_unlink fs parent name h,
    fun fs parent name h => contentOk_unlink fs parent name h⟩
  · intro fs newIno parent name uid gid t h p hp
    rcases h p hp with ⟨q, hq, hkey, hkind⟩
    by_cases hqk : q.1 = newIno
    · refine ⟨(newIno,
        ⟨[⟨parent, name⟩], new_file_attr newIno 0 .RegularFile uid gid t, 0⟩),
        self_mem_alistInsert _ _ _, ?_, Or.inl rfl⟩
      show newIno = p.1
      rw [← hqk]
      exact hkey
    · exact ⟨q, mem_alistInsert_of_ne _ hq hqk, hkey, hkind⟩
  · intro fs newIno parent name uid gid t h hfresh p hp
    rcases h p hp with ⟨q, hq, hkey, hkind⟩
    have hqk : q.1 ≠ newIno := by
      rw [hkey]
      exact hfresh p hp
    exact ⟨q, mem_alistInsert_of_ne _ hq hqk, hkey, hkind⟩
  · intro fs newIno parent name target uid gid t a fs' h hs p hp
    by_cases hv : validUtf8 target = true
    · simp only [symlink, hv, if_true, Option.some.injEq, Prod.mk.injEq] at hs
      rw [← hs.2] at hp ⊢
      rcases mem_alistInsert hp with he | hm
      · refine ⟨(newIno,
          ⟨[⟨parent, name⟩], new_file_attr newIno 0 .Symlink uid gid t, 0⟩),
          self_mem_alistInsert _ _ _, ?_, Or.inr rfl⟩
        show newIno = p.1
        rw [he]
      · rcases h p hm with ⟨q, hq, hkey, hkind⟩
        by_cases hqk : q.1 = newIno
        · refine ⟨(newIno,
            ⟨[⟨parent, name⟩], new_file_attr newIno 0 .Symlink uid gid t, 0⟩),
            self_mem_alistInsert _ _ _, ?_, Or.inr rfl⟩
          show newIno = p.1
          rw [← hqk]
          exact hkey
        · exact ⟨q, mem_alistInsert_of_ne _ hq hqk, hkey, hkind⟩
    · simp [symlink, hv] at hs
  · intro fs ino size uid gid mtime flags h p hp
    cases hm : alistGet ino fs.inodes with
    | none =>
      have heq : (setattr fs ino size uid gid mtime flags).2 = fs := by
        simp [setattr, hm]
      rw [heq]
      exact h p (by
        rw [show (setattr fs ino size uid gid mtime flags).2 = fs from heq] at hp
        exact hp)
    | some f =>
      have heqi : (setattr fs ino size uid gid mtime flags).2.inodes
          = alistModify ino (setattrUpd { f.attr with
              size := size.getD f.attr.size, uid := uid.getD f.attr.uid,
              gid := gid.getD f.attr.gid, mtime := mtime.getD f.attr.mtime,
              flags := flags.getD f.attr.flags }) fs.inodes := by
        simp [setattr, hm]
      have heqd : (setattr fs ino size uid gid mtime flags).2.datas = fs.datas := by
        simp [setattr, hm]
      rw [heqd] at hp
      rw [heqi]
      rcases h p hp with ⟨q, hq, hkey, hkind⟩
      rcases alistModify_mem_of_mem hq with hmem | ⟨hk0, hget, hmem⟩
      · exact ⟨q, hmem, hkey, hkind⟩
      · rw [hm] at hget
        refine ⟨(q.1, setattrUpd _ q.2), hmem, hkey, ?_⟩
        have hfq : f = q.2 := by
          cases hget
          rfl

        rcases hkind with hk | hk
        · exact Or.inl (by show _ = FileType.RegularFile; simp [setattrUpd, ← hfq]; rw [hfq]; exact hk)
        · exact Or.inr (by show _ = FileType.Symlink; simp [setattrUpd, ← hfq]; rw [hfq]; exact hk)
  · intro fs ino newparent newname h p hp
    cases hm : alistGet ino fs.inodes with
    | none =>
      have heq : (link fs ino newparent newname).2 = fs := by simp [link, hm]
      rw [heq] at hp ⊢
      exact h p hp
    | some f =>
      by_cases he : hasEntry newparent newname f.hard_links = true
      · have heq : (link fs ino newparent newname).2 = fs := by
          simp [link, hm, he]
        rw [heq] at hp ⊢
        exact h p hp
      · have heqi : (link fs ino newparent newname).2.inodes
            = alistModify ino (linkUpd newparent newname) fs.inodes := by
          simp [link, hm, he]
        have heqd : (link fs ino newparent newname).2.datas = fs.datas := by
          simp [link, hm, he]
        rw [heqd] at hp
        rw [heqi]
        rcases h p hp with ⟨q, hq, hkey, hkind⟩
        rcases alistModify_mem_of_mem hq with hmem | ⟨hk0, hget, hmem⟩
        · exact ⟨q, hmem, hkey, hkind⟩
        · exact ⟨(q.1, linkUpd newparent newname q.2), hmem, hkey, hkind⟩

/-- Witness for `content_kind_invariant`: a fresh mkdir in the startup
state (which has no content at all) keeps the invariant. -/
theorem content_kind_invariant_witness :
    contentOk (mkdir (initState 0) 5 1 "d" 501 20 1).2 :=
  content_kind_invariant.2.2.1 (initState 0) 5 1 "d" 501 20 1
    (by unfold contentOk; decide) (by decide)

/-- Counterexample to claim C9 as stated: a write to the absent inode 5
succeeds (reports 1 byte written) and leaves content keyed by inode 5,
which does not exist in the table. -/
theorem write_orphan_content :
    (write (initState 0) 5 [97]).isSome = true ∧
    alistGet 5 ((write (initState 0) 5 [97]).getD (0, initState 0)).2.datas
        = some [97] ∧
    alistGet 5 ((write (initState 0) 5 [97]).getD (0, initState 0)).2.inodes
        = none := by
  refine ⟨?_, ?_, ?_⟩ <;> decide

/-- Claim C4 (amended): `unlink(parent, name)` replies AccessDenied
exactly when no inode holds a `(parent, name)` link entry, and then it
changes nothing. When exactly one inode `i` (with `i ≠ 0`, keys distinct)
holds such an entry, the call succeeds, removes from inode `i` the FIRST
link entry whose *name* is `name` — which may pair a different parent,
the amendment forced by `unlink_removes_wrong_entry` — decrements `i`'s
link count, leaves every other inode and content entry unchanged, and
deletes inode `i` together with its content exactly when its link set
becomes empty; so a removal that leaves entries keeps the inode and its
content, and the removal of the last entry deletes both. -/
theorem unlink_spec (fs : MemFS) (parent : Nat) (name : String) :
    ((unlink fs parent name).1 = false ↔
      ∀ p ∈ fs.inodes, hasEntry parent name p.2.hard_links = false) ∧
    ((∀ p ∈ fs.inodes, hasEntry parent name p.2.hard_links = false) →
      (unlink fs parent name).2.inodes = fs.inodes ∧
      (unlink fs parent name).2.datas = fs.datas) ∧
    (∀ i f, keysNodup fs.inodes → i ≠ 0 →
      alistGet i fs.inodes = some f →
      hasEntry parent name f.hard_links = true →
      (∀ p ∈ fs.inodes, p.1 ≠ i → hasEntry parent name p.2.hard_links = false) →
      (unlink fs parent name).1 = true ∧
      (∀ j, j ≠ i → alistGet j (unlink fs parent name).2.inodes
          = alistGet j fs.inodes) ∧
      (∀ j, j ≠ i → alistGet j (unlink fs parent name).2.datas
          = alistGet j fs.datas) ∧
      (removeFirstByName name f.hard_links = [] →
        alistGet i (unlink fs parent name).2.inodes = none ∧
        alistGet i (unlink fs parent name).2.datas = none) ∧
      (removeFirstByName name f.hard_links ≠ [] →
        alistGet i (unlink fs parent name).2.inodes
            = some (unlinkFile parent name f) ∧
        (unlink fs parent name).2.datas = fs.datas)) := by
  refine ⟨?_, ?_, ?_⟩
  · rw [unlink_fst, List.any_eq_false]
    constructor
    · intro hall p hp
      have := hall p hp
      simpa using this
    · intro hall p hp
      rw [hall p hp]
      simp
  · intro hall
    have hdel : deleteIno parent name fs.inodes = 0 :=
      deleteIno_none fun p hp => by simp [delCond, hall p hp]
    constructor
    · rw [unlink_inodes_cases, hdel, if_neg (by simp)]
      exact map_id_on fun p hp => by
        rw [unlinkFile_no_match (hall p hp)]
    · rw [unlink_datas_cases, hdel, if_neg (by simp)]
  · intro i f hn hi0 hget hhas hothers
    have hqmem : (i, f) ∈ fs.inodes := alistGet_mem hget
    have huniq : ∀ p ∈ fs.inodes, delCond parent name p = true → p = (i, f) := by
      intro p hp hc
      obtain ⟨pk, pv⟩ := p
      have hhe : hasEntry parent name pv.hard_links = true := by
        have hc' := hc
        simp only [delCond, Bool.and_eq_true] at hc'
        exact hc'.1
      by_cases hpk : pk = i
      · subst hpk
        have hg2 : alistGet pk fs.inodes = some pv :=
          alistGet_of_mem_nodup hn hp
        rw [hget] at hg2
        cases hg2
        rfl
      · rw [hothers (pk, pv) hp hpk] at hhe
        cases hhe
    have hd := deleteIno_unique hqmem huniq
    have hfst : (unlink fs parent name).1 = true := by
      rw [unlink_fst]
      exact List.any_eq_true.mpr ⟨(i, f), hqmem, hhas⟩
    have hmapj : ∀ j, j ≠ i →
        (alistGet j fs.inodes).map (unlinkFile parent name)
          = alistGet j fs.inodes := by
      intro j hj
      cases hjg : alistGet j fs.inodes with
      | none => rfl
      | some v =>
        have hvm : (j, v) ∈ fs.inodes := alistGet_mem hjg
        rw [Option.map_some', unlinkFile_no_match (hothers (j, v) hvm hj)]
    by_cases hrem : removeFirstByName name f.hard_links = []
    · have hcond : delCond parent name (i, f) = true := by
        simp [delCond, hhas, hrem]
      have hd' : deleteIno parent name fs.inodes = i := by
        rw [hd, if_pos hcond]
      have hino : (unlink fs parent name).2.inodes
          = alistErase i
              (fs.inodes.map (fun p => (p.1, unlinkFile parent name p.2))) := by
        rw [unlink_inodes_cases, hd', if_pos hi0]
      have hdat : (unlink fs parent name).2.datas = alistErase i fs.datas := by
        rw [unlink_datas_cases, hd', if_pos hi0]
      refine ⟨hfst, ?_, ?_, ?_, fun hne => absurd hrem hne⟩
      · intro j hj
        rw [hino, alistGet_erase_ne _ _ _ hj, alistGet_map]
        exact hmapj j hj
      · intro j hj
        rw [hdat, alistGet_erase_ne _ _ _ hj]
      · intro _
        rw [hino, hdat]
        exact ⟨alistGet_erase_self _ _, alistGet_erase_self _ _⟩
    · have hie : (removeFirstByName name f.hard_links).isEmpty = false :=
        List.isEmpty_eq_false.mpr hrem
      have hcond : delCond parent name (i, f) = false := by
        simp [delCond, hhas, hie]
      have hd' : deleteIno parent name fs.inodes = 0 := by
        rw [hd, if_neg (by simp [hcond])]
      have hino : (unlink fs parent name).2.inodes
          = fs.inodes.map (fun p => (p.1, unlinkFile parent name p.2)) := by
        rw [unlink_inodes_cases, hd', if_neg (by simp)]
      have hdat : (unlink fs parent name).2.datas = fs.datas := by
        rw [unlink_datas_cases, hd', if_neg (by simp)]
      refine ⟨hfst, ?_, ?_, fun he => absurd he hrem, fun _ => ⟨?_, hdat⟩⟩
      · intro j hj
        rw [hino, alistGet_map]
        exact hmapj j hj
      · intro j hj
        rw [hdat]
      · rw [hino, alistGet_map, hget, Option.map_some']

/-- Witness for `unlink_spec`: unlinking the single link of the file at
inode 2 succeeds and deletes the inode. -/
theorem unlink_spec_witness :
    (unlink exFileState 1 "a").1 = true ∧
    alistGet 2 (unlink exFileState 1 "a").2.inodes = none :=
  ⟨((unlink_spec exFileState 1 "a").2.2 2 exFile (by unfold keysNodup; decide)
      (by decide) (by decide) (by decide) (by decide)).1,
   (((unlink_spec exFileState 1 "a").2.2 2 exFile (by unfold keysNodup; decide)
      (by decide) (by decide) (by decide) (by decide)).2.2.2.1 (by decide)).1⟩

/-- Counterexample to claim C4 as stated: inode 2 of `exSameName` holds
the two entries (3, "a") and (4, "a"); unlinking (4, "a") succeeds but
removes the (3, "a") entry — the first whose name matches — leaving
exactly the entry the call named. -/
theorem unlink_removes_wrong_entry :
    (unlink exSameName 4 "a").1 = true ∧
    (alistGet 2 (unlink exSameName 4 "a").2.inodes).map File.hard_links
        = some [⟨4, "a"⟩] ∧
    (alistGet 2 exSameName.inodes).map File.hard_links
        = some [⟨3, "a"⟩, ⟨4, "a"⟩] := by
  refine ⟨?_, ?_, ?_⟩ <;> decide

end KahiroFS
